import Mathlib

/-!
Verification of the rate-limit key-normalizer core of this repository.

The source under scrutiny is the `ipKeyGenerator` function (IPv6 subnet key
generation with a bounded FIFO memo cache).  Its two external collaborators are
modelled faithfully on the inputs the function can actually feed them:

* `isIPv6` from `node:net`, a syntactic IPv6 validator (Node implements it as
  an anchored regular expression; the structural parser below accepts exactly
  the same language: groups of 1-4 hex digits separated by single colons, at
  most one `::` elision, an optional embedded dotted IPv4 tail, and an optional
  `%zone` suffix of characters `[0-9a-zA-Z.]`).

* `Address6` from the `ip-address` npm package, of which the program uses only
  `new Address6(key).startAddress().correctForm()`.  The model reproduces the
  library pipeline: extract a `/ddd` subnet suffix (regex `\/\d{1,3}(?=%|$)`,
  rejecting masks above 128 and strings that contain `/` without a well-formed
  suffix), strip a `%...` zone, convert an embedded IPv4 tail to two hex
  groups, expand the `::` elision to exactly eight 16-bit groups, zero every
  bit after the subnet mask, and re-render with the first longest run of two
  or more zero groups compressed to `::`.

JavaScript `Map` state is modelled as an insertion-ordered association list;
`Map.set` on a fresh key appends, `Map.set` on a present key overwrites in
place, `Map.delete` removes the unique entry with the given key, and the first
list entry is the eldest (`map.keys().next().value`).

The Counter Store (`MemoryStore`) is not part of the given sources; it is
modelled from the specification text where needed (see `MemoryStore`).
-/

/-- Decimal digit test, the character class `[0-9]`. -/
def isDig (c : Char) : Bool :=
  '0' ≤ c && c ≤ '9'

/-- Hexadecimal digit test, the character class `[0-9a-fA-F]`. -/
def isHexDig (c : Char) : Bool :=
  isDig c || ('a' ≤ c && c ≤ 'f') || ('A' ≤ c && c ≤ 'F')

/-- Characters allowed in an IPv6 zone identifier, the class `[0-9a-zA-Z.]`. -/
def isZoneChar (c : Char) : Bool :=
  isDig c || ('a' ≤ c && c ≤ 'z') || ('A' ≤ c && c ≤ 'Z') || c = '.'

/-- Numeric value of a decimal digit character. -/
def digVal (c : Char) : Nat :=
  c.toNat - 48

/-- Numeric value of a hexadecimal digit character (upper or lower case). -/
def hexDigVal (c : Char) : Nat :=
  if isDig c then c.toNat - 48
  else if 'a' ≤ c && c ≤ 'f' then c.toNat - 87
  else c.toNat - 55

/-- Value of a decimal digit string (the effect of JavaScript `parseInt(s, 10)`
on an all-digit string). -/
def decValL (l : List Char) : Nat :=
  l.foldl (fun a c => a * 10 + digVal c) 0

/-- Value of a hexadecimal digit string (`parseInt(s, 16)` on a hex string). -/
def hexValL (l : List Char) : Nat :=
  l.foldl (fun a c => a * 16 + hexDigVal c) 0

/-- The decimal digit character for a value below ten. -/
def digCh (n : Nat) : Char :=
  Char.ofNat (48 + n)

/-- The lowercase hexadecimal digit character for a value below sixteen. -/
def hexDigCh (n : Nat) : Char :=
  if n < 10 then Char.ofNat (48 + n) else Char.ofNat (87 + n)

/-- Fuel-driven core of decimal rendering (fuel makes the recursion
structural, so that proofs and kernel evaluation both unfold it). -/
def natDecAux : Nat → Nat → List Char
  | 0, _ => []
  | f + 1, n => if n < 10 then [digCh n] else natDecAux f (n / 10) ++ [digCh (n % 10)]

/-- Decimal rendering of a natural number, as JavaScript renders an integral
number inside a template literal. -/
def natDec (n : Nat) : List Char :=
  natDecAux (n + 1) n

/-- Decimal rendering of an integer, sign included (JavaScript number to
string for integral values). -/
def intDec (n : Int) : List Char :=
  if n < 0 then '-' :: natDec n.natAbs else natDec n.toNat

/-- Fuel-driven core of lowercase hexadecimal rendering. -/
def natHexAux : Nat → Nat → List Char
  | 0, _ => []
  | f + 1, n => if n < 16 then [hexDigCh n] else natHexAux f (n / 16) ++ [hexDigCh (n % 16)]

/-- Lowercase hexadecimal rendering without leading zeroes, the effect of
JavaScript `n.toString(16)` for a natural number. -/
def natHex (n : Nat) : List Char :=
  natHexAux (n + 1) n

/-- Split a character list at every occurrence of `sep`, keeping empty pieces,
as JavaScript `String.prototype.split` with a one-character separator. -/
def splitOnChar (sep : Char) : List Char → List (List Char)
  | [] => [[]]
  | c :: rest =>
    if c = sep then [] :: splitOnChar sep rest
    else
      match splitOnChar sep rest with
      | s :: ss => (c :: s) :: ss
      | [] => [[c]]

/-- Split at every non-overlapping occurrence of the two-character separator
`::`, scanning left to right, as JavaScript `s.split('::')`. -/
def splitDC : List Char → List (List Char)
  | [] => [[]]
  | ':' :: ':' :: rest => [] :: splitDC rest
  | c :: rest =>
    match splitDC rest with
    | s :: ss => (c :: s) :: ss
    | [] => [[c]]

/-- Split off an optional zone suffix: the part before the first `%` and, when
a `%` is present, the part after it. -/
def splitZone (l : List Char) : List Char × Option (List Char) :=
  match l.span (fun c => c ≠ '%') with
  | (a, []) => (a, none)
  | (a, _ :: z) => (a, some z)

/-- Join pieces with single colons (inverse direction of `splitOnChar`). -/
def joinColon (ls : List (List Char)) : List Char :=
  match ls with
  | [] => []
  | [s] => s
  | s :: rest => s ++ ':' :: joinColon rest

/-- One hexadecimal group of an IPv6 address: one to four hex digits (the
regex piece `[0-9a-fA-F]{1,4}`). -/
def isV6Seg (g : List Char) : Bool :=
  decide (1 ≤ g.length) && decide (g.length ≤ 4) && g.all isHexDig

/-- One dotted-decimal IPv4 octet as Node's regex accepts it:
`25[0-5]|2[0-4][0-9]|1[0-9][0-9]|[1-9][0-9]|[0-9]` — i.e. an all-digit string
that is a single digit, or two digits valued at least 10, or three digits
valued 100 to 255. -/
def isV4SegL (g : List Char) : Bool :=
  g.all isDig &&
    (decide (g.length = 1) ||
     (decide (g.length = 2) && decide (10 ≤ decValL g)) ||
     (decide (g.length = 3) && decide (100 ≤ decValL g) && decide (decValL g ≤ 255)))

/-- A full dotted-decimal IPv4 address: exactly four octets. -/
def isV4Str (g : List Char) : Bool :=
  match splitOnChar '.' g with
  | [a, b, c, d] => isV4SegL a && isV4SegL b && isV4SegL c && isV4SegL d
  | _ => false

/-- An IPv6 address with no `::` elision: eight hex groups, or six hex groups
followed by an embedded IPv4 tail. -/
def noElision (a : List Char) : Bool :=
  match splitOnChar ':' a with
  | [g1, g2, g3, g4, g5, g6, g7, g8] => [g1, g2, g3, g4, g5, g6, g7, g8].all isV6Seg
  | [g1, g2, g3, g4, g5, g6, g7] => [g1, g2, g3, g4, g5, g6].all isV6Seg && isV4Str g7
  | _ => false

/-- The colon-separated pieces of one side of a `::` elision; an empty side
contributes no groups. -/
def segsOf (x : List Char) : List (List Char) :=
  if x = [] then [] else splitOnChar ':' x

/-- An IPv6 address with a `::` elision, given the texts left and right of the
first `::`.  Left groups are hex; right groups are hex with an optional IPv4
tail (worth two groups); the explicit groups total at most seven, so the
elision always stands for at least one zero group.  This is exactly the
alternation structure of Node's `IPv6Reg`. -/
def elisionOK (lft rgt : List Char) : Bool :=
  let ls := segsOf lft
  let rs := segsOf rgt
  ls.all isV6Seg &&
    ((rs.all isV6Seg && decide (ls.length + rs.length ≤ 7)) ||
      (match rs.reverse with
       | [] => false
       | lastSeg :: initRev =>
         initRev.all isV6Seg && isV4Str lastSeg &&
           decide (ls.length + rs.length + 1 ≤ 7)))

/-- The address part (zone already removed) of Node's IPv6 syntax. -/
def isV6Addr (addr : List Char) : Bool :=
  match splitDC addr with
  | [one] => noElision one
  | [lft, rgt] => elisionOK lft rgt
  | _ => false

/-- Character-list core of `isIPv6`. -/
def isIPv6L (l : List Char) : Bool :=
  match splitZone l with
  | (addr, none) => isV6Addr addr
  | (addr, some z) => decide (1 ≤ z.length) && z.all isZoneChar && isV6Addr addr

/-- Model of `isIPv6` from `node:net` (the anchored `IPv6Reg` regular
expression), used by `ipKeyGenerator` at src/unnamed/part_000 line 25. -/
def isIPv6 (s : String) : Bool :=
  isIPv6L s.data

/-- Errors surfaced by the `Address6` constructor of the `ip-address` package.
`invalidSubnetMask` is the `AddressError('Invalid subnet mask.')` raised while
extracting the `/ddd` suffix; every failure of the later address-parsing stage
is collapsed into `parseError` (those stages are unreachable for inputs that
passed `isIPv6`). -/
inductive AddrErr where
  | invalidSubnetMask
  | parseError
deriving DecidableEq, Repr

/-- Attempt the regex piece `\d{1,3}(?=%|$)` at the position right after a
`/`: greedily take three, then two, then one decimal digits, requiring the
lookahead (end of string or `%`) to hold after them.  Returns the digits and
the characters after them. -/
def tryMatchSubnet (t : List Char) : Option (List Char × List Char) :=
  if decide (3 ≤ t.length) && (t.take 3).all isDig &&
      (decide (t.drop 3 = []) || decide ((t.drop 3).head? = some '%')) then
    some (t.take 3, t.drop 3)
  else if decide (2 ≤ t.length) && (t.take 2).all isDig &&
      (decide (t.drop 2 = []) || decide ((t.drop 2).head? = some '%')) then
    some (t.take 2, t.drop 2)
  else if decide (1 ≤ t.length) && (t.take 1).all isDig &&
      (decide (t.drop 1 = []) || decide ((t.drop 1).head? = some '%')) then
    some (t.take 1, t.drop 1)
  else
    none

/-- First match of the subnet regex `\/\d{1,3}(?=%|$)` scanning left to
right, together with the input with that first match removed (the effect of
`RE_SUBNET_STRING.exec` followed by `address.replace(RE_SUBNET_STRING, '')`).
-/
def findSubnet : List Char → Option (List Char × List Char)
  | [] => none
  | c :: rest =>
    if c = '/' then
      match tryMatchSubnet rest with
      | some (d, after) => some (d, after)
      | none => (findSubnet rest).map (fun p => (p.1, c :: p.2))
    else
      (findSubnet rest).map (fun p => (p.1, c :: p.2))

/-- Remove a zone suffix: `address.replace(/%.*$/, '')`. -/
def stripZone (l : List Char) : List Char :=
  l.takeWhile (fun c => c ≠ '%')

/-- Parse a dotted-decimal IPv4 address into its four octet values (used for
the embedded-IPv4 tail, which `isIPv6` has already validated). -/
def parseV4 (g : List Char) : Option (Nat × Nat × Nat × Nat) :=
  match splitOnChar '.' g with
  | [a, b, c, d] => some (decValL a, decValL b, decValL c, decValL d)
  | _ => none

/-- The `parse4in6` step of `Address6`: when the last colon-group is a dotted
IPv4 address, replace it by the two hex groups it denotes (the effect of
`Address4.toGroup6`), rejoining with colons. -/
def parse4in6 (l : List Char) : Except AddrErr (List Char) :=
  let gs := splitOnChar ':' l
  match gs.getLast? with
  | none => .ok l
  | some lastG =>
    if isV4Str lastG then
      match parseV4 lastG with
      | some (o0, o1, o2, o3) =>
        .ok (joinColon (gs.dropLast ++ [natHex (o0 * 256 + o1) ++ ':' :: natHex (o2 * 256 + o3)]))
      | none => .error .parseError
    else
      .ok l

/-- A colon-group acceptable to `Address6.parse`: nonempty, at most four
characters, all hexadecimal (longer or empty groups make the library fail,
via `RE_BAD_ADDRESS` or downstream numeric conversion). -/
def okGroup (g : List Char) : Bool :=
  decide (1 ≤ g.length) && decide (g.length ≤ 4) && g.all isHexDig

/-- The `Address6.parse` step: expand the optional `::` elision into exactly
eight groups and read each group as a 16-bit value.  Inputs on which the
library errors (or leaves the structured-parse contract, which cannot happen
for `isIPv6`-validated inputs) map to `parseError`. -/
def parseGroupsL (l : List Char) : Except AddrErr (List Nat) :=
  if l.all (fun c => isHexDig c || c = ':') then
    match splitDC l with
    | [single] =>
      let gs := splitOnChar ':' single
      if gs.all okGroup && decide (gs.length = 8) then .ok (gs.map hexValL)
      else .error .parseError
    | [lft, rgt] =>
      let f := if lft = [] then [] else splitOnChar ':' lft
      let b := if rgt = [] then [] else splitOnChar ':' rgt
      if f.all okGroup && b.all okGroup && decide (f.length + b.length < 8) then
        .ok (f.map hexValL ++ List.replicate (8 - (f.length + b.length)) 0 ++ b.map hexValL)
      else .error .parseError
    | _ => .error .parseError
  else .error .parseError

/-- The 128-bit value of eight 16-bit groups (`Address6.bigInteger`). -/
def groupsVal (gs : List Nat) : Nat :=
  gs.foldl (fun a g => a * 65536 + g) 0

/-- The eight 16-bit groups of a 128-bit value (`Address6.fromBigInteger`). -/
def toGroups (v : Nat) : List Nat :=
  (List.range 8).map (fun i => v / 2 ^ (16 * (7 - i)) % 65536)

/-- The maximal runs of two or more consecutive zero groups, as inclusive
index pairs, exactly as the scanning loop of `Address6.correctForm` collects
them. -/
def zeroRunsAux : List Nat → Nat → Nat → List (Nat × Nat)
  | [], i, zc => if 1 < zc then [(i - zc, i - 1)] else []
  | g :: rest, i, zc =>
    if g = 0 then zeroRunsAux rest (i + 1) (zc + 1)
    else (if 1 < zc then [(i - zc, i - 1)] else []) ++ zeroRunsAux rest (i + 1) 0

/-- Entry point of the zero-run scan. -/
def zeroRuns (gs : List Nat) : List (Nat × Nat) :=
  zeroRunsAux gs 0 0

/-- The first run of maximal length (the `zeroLengths.indexOf(Math.max(...))`
selection: later runs replace the choice only when strictly longer). -/
def pickRun (rs : List (Nat × Nat)) : Option (Nat × Nat) :=
  rs.foldl
    (fun acc r =>
      match acc with
      | none => some r
      | some b => if b.2 - b.1 < r.2 - r.1 then some r else some b)
    none

/-- Render groups as lowercase hex joined by colons. -/
def hexJoin (gs : List Nat) : List Char :=
  joinColon (gs.map natHex)

/-- The `Address6.correctForm` rendering of eight groups: compress the first
longest zero run of length at least two to `::` (the `compact` placeholder
plus replacement chain of the library), otherwise plain colon-joined hex. -/
def correctFormL (gs : List Nat) : List Char :=
  match pickRun (zeroRuns gs) with
  | none => hexJoin gs
  | some (a, b) =>
    match gs.take a, gs.drop (b + 1) with
    | [], [] => [':', ':']
    | [], rgt => ':' :: ':' :: hexJoin rgt
    | lft, [] => hexJoin lft ++ [':', ':']
    | lft, rgt => hexJoin lft ++ ':' :: ':' :: hexJoin rgt

/-- Character-list model of `new Address6(key).startAddress().correctForm()`:
subnet extraction, zone stripping, embedded-IPv4 conversion, group parsing,
masking of every bit after the subnet mask, and canonical re-rendering. -/
def address6StartCorrectL (l : List Char) : Except AddrErr (List Char) := do
  let (mask, rest) ←
    (match findSubnet l with
     | some (d, rem) =>
       if 128 < decValL d then Except.error AddrErr.invalidSubnetMask
       else Except.ok (decValL d, rem)
     | none =>
       if l.contains '/' then Except.error AddrErr.invalidSubnetMask
       else Except.ok (0, l))
  let noZone := stripZone rest
  let conv ← parse4in6 noZone
  let gs ← parseGroupsL conv
  let v := groupsVal gs
  let w := v / 2 ^ (128 - mask) * 2 ^ (128 - mask)
  pure (correctFormL (toGroups w))

/-- String-level model of `new Address6(key).startAddress().correctForm()`
(src/unnamed/part_000 line 37). -/
def address6StartCorrect (s : String) : Except AddrErr String :=
  (address6StartCorrectL s.data).map (fun l => String.mk l)

/-- Lookup in an insertion-ordered association list, the behavior of
JavaScript `Map.prototype.get` (keys compared as exact strings). -/
def jsGet {α : Type} (m : List (String × α)) (k : String) : Option α :=
  (m.find? (fun e => e.1 = k)).map (fun e => e.2)

/-- JavaScript `Map.prototype.set`: overwrite in place when the key is
present, append otherwise. -/
def jsSet {α : Type} (m : List (String × α)) (k : String) (v : α) : List (String × α) :=
  if m.any (fun e => e.1 = k) then
    m.map (fun e => if e.1 = k then (k, v) else e)
  else m ++ [(k, v)]

/-- JavaScript `Map.prototype.delete`: remove the (unique) entry keyed `k`. -/
def jsDelete {α : Type} (m : List (String × α)) (k : String) : List (String × α) :=
  m.eraseP (fun e => e.1 = k)

/-- The normalizer cache: `const ipv6Cache = new Map<string, string>()` in the
source is a module-level mutable map; here it is threaded explicitly through
`ipKeyGenerator`, whose second result is the cache after the call. -/
abbrev Ipv6Cache := List (String × String)

/-- `const MAX_CACHE_SIZE = 10000` (src/unnamed/part_000 line 6). -/
def MAX_CACHE_SIZE : Nat := 10000

/-- The `ipv6Subnet` argument of `ipKeyGenerator`, whose TypeScript type is
`number | false`; integral numbers (the documented domain of subnet sizes)
are modelled by `Int`. -/
inductive SubnetArg where
  | num (n : Int)
  | fls
deriving DecidableEq, Repr

/-- JavaScript truthiness of an `ipv6Subnet` value: `false` and the number
`0` are falsy, every other integral number is truthy. -/
def subnetTruthy : SubnetArg → Bool
  | .num n => decide (n ≠ 0)
  | .fls => false

/-- The text a template literal interpolates for an `ipv6Subnet` value.  The
`fls` case never reaches a template literal in the source (the falsy guard
returns first), so its rendering is irrelevant; it is still given the faithful
JavaScript text. -/
def subnetStr : SubnetArg → String
  | .num n => String.mk (intDec n)
  | .fls => "false"

/-- The default value of the `ipv6Subnet` parameter
(`ipv6Subnet: number | false = 56`, src/unnamed/part_000 line 23). -/
def defaultIpv6Subnet : SubnetArg := .num 56

/-- The composite cache key `(ip, subnetSize)` as the source builds it:
the template literal `${ip}/${ipv6Subnet}`. -/
def cacheKeyOf (ip : String) (s : SubnetArg) : String :=
  ip ++ "/" ++ subnetStr s

/-- Model of `ipKeyGenerator` (src/unnamed/part_000 lines 23-50).  The
module-level cache is passed in and the updated cache is returned; a thrown
`AddressError` is an `Except.error` result (and, as in the source, leaves the
cache untouched because the computation precedes the eviction and insertion).
-/
def ipKeyGenerator (ip : String) (ipv6Subnet : SubnetArg) (cache : Ipv6Cache) :
    Except AddrErr String × Ipv6Cache :=
  if !subnetTruthy ipv6Subnet || !isIPv6 ip then
    (.ok ip, cache)
  else
    let cacheKey := cacheKeyOf ip ipv6Subnet
    match jsGet cache cacheKey with
    | some cached => (.ok cached, cache)
    | none =>
      match address6StartCorrect cacheKey with
      | .error e => (.error e, cache)
      | .ok form =>
        let result := form ++ "/" ++ subnetStr ipv6Subnet
        let cache1 :=
          if MAX_CACHE_SIZE ≤ cache.length then
            match cache.head? with
            | some e => jsDelete cache e.1
            | none => cache
          else cache
        (.ok result, jsSet cache1 cacheKey result)

/-- Cache-free reference computation, following the specification text of
section 4.2: return the input unchanged on the no-collapsing sentinel or a
non-IPv6 input, otherwise compute the subnet start address in canonical
compressed form and append the subnet size. -/
def referenceKey (ip : String) (s : SubnetArg) : Except AddrErr String :=
  if !subnetTruthy s || !isIPv6 ip then .ok ip
  else (address6StartCorrect (cacheKeyOf ip s)).map (fun form => form ++ "/" ++ subnetStr s)

/-- Cache states reachable from the initial empty module-level cache by some
sequence of `ipKeyGenerator` calls. -/
inductive Reachable : Ipv6Cache → Prop
  | nil : Reachable []
  | step (ip : String) (s : SubnetArg) {c : Ipv6Cache} :
      Reachable c → Reachable (ipKeyGenerator ip s c).2

/-- A cache entry is correct: it is the memo of some collapsing call, keyed by
that call's composite key and holding that call's reference result. -/
def EntryOK (e : String × String) : Prop :=
  ∃ ip s, subnetTruthy s = true ∧ isIPv6 ip = true ∧
    e.1 = cacheKeyOf ip s ∧ referenceKey ip s = .ok e.2

/-- Every entry of the cache is correct. -/
def CacheOK (c : Ipv6Cache) : Prop :=
  ∀ e ∈ c, EntryOK e

/-- The call form of `ipKeyGenerator` with the `ipv6Subnet` argument omitted:
TypeScript fills in the declared default value 56. -/
def ipKeyGeneratorDefault (ip : String) (cache : Ipv6Cache) :
    Except AddrErr String × Ipv6Cache :=
  ipKeyGenerator ip defaultIpv6Subnet cache

/-- The last `n` elements of a list (what survives repeated FIFO eviction). -/
def lastN (n : Nat) (l : List α) : List α :=
  l.drop (l.length - n)

/-- The cache entry a successful miss on `(ip, s)` inserts; defaults to the
empty string when the computation fails (the hypotheses of the theorems using
it rule the failure out). -/
def entryOf (p : String × SubnetArg) : String × String :=
  match address6StartCorrect (cacheKeyOf p.1 p.2) with
  | .ok form => (cacheKeyOf p.1 p.2, form ++ "/" ++ subnetStr p.2)
  | .error _ => (cacheKeyOf p.1 p.2, "")

/-- Fold a sequence of `ipKeyGenerator` calls over the cache. -/
def runCalls (l : List (String × SubnetArg)) (c : Ipv6Cache) : Ipv6Cache :=
  l.foldl (fun acc p => (ipKeyGenerator p.1 p.2 acc).2) c

/-- Modelled from the spec: the Counter Store state (section 4.1), missing
from the given sources (only its callers appear, in src/benchmark.mjs).  One
hit record per key holds `count` and `resetTime`; `windowMs` is the window
length configured by `init`. -/
structure MemoryStore where
  windowMs : Nat
  hits : List (String × Nat × Nat)

/-- Modelled from the spec: `increment(key)` of the Counter Store (sections
4.1 and 8).  With `now` the current clock reading: if no live record exists
for the key (absent, or present with `resetTime ≤ now`, hence expired), a
fresh record with `count = 1` and `resetTime = now + windowDurationMs` is
created; if a live record exists its count is incremented and its reset time
left unchanged.  Returns `(count, resetTime)` with the updated store. -/
def MemoryStore.increment (st : MemoryStore) (key : String) (now : Nat) :
    (Nat × Nat) × MemoryStore :=
  match jsGet st.hits key with
  | some (c, rt) =>
    if now < rt then
      ((c + 1, rt), ⟨st.windowMs, jsSet st.hits key (c + 1, rt)⟩)
    else
      ((1, now + st.windowMs), ⟨st.windowMs, jsSet st.hits key (1, now + st.windowMs)⟩)
  | none => ((1, now + st.windowMs), ⟨st.windowMs, jsSet st.hits key (1, now + st.windowMs)⟩)

/-- A run of consecutive `increment` calls on one key at the given clock
readings, collecting the returned `(count, resetTime)` pairs. -/
def MemoryStore.incrementSeq (st : MemoryStore) (key : String) :
    List Nat → List (Nat × Nat) × MemoryStore
  | [] => ([], st)
  | t :: ts =>
    let r := st.increment key t
    let rest := r.2.incrementSeq key ts
    (r.1 :: rest.1, rest.2)

theorem isDig_ne_slash {c : Char} (h : isDig c = true) : c ≠ '/' := by
  intro he
  subst he
  exact absurd h (by decide)

theorem isHexDig_ne_slash {c : Char} (h : isHexDig c = true) : c ≠ '/' := by
  intro he
  subst he
  exact absurd h (by decide)

theorem isZoneChar_ne_slash {c : Char} (h : isZoneChar c = true) : c ≠ '/' := by
  intro he
  subst he
  exact absurd h (by decide)

theorem splitOnChar_ne_nil (sep : Char) (l : List Char) : splitOnChar sep l ≠ [] := by
  cases l with
  | nil => simp [splitOnChar]
  | cons c rest =>
    simp only [splitOnChar]
    by_cases h : c = sep
    · simp [h]
    · simp only [if_neg h]
      cases splitOnChar sep rest <;> simp

theorem mem_splitOnChar (sep : Char) {c : Char} {l : List Char} (hc : c ∈ l) :
    c = sep ∨ ∃ s ∈ splitOnChar sep l, c ∈ s := by
  induction l with
  | nil => cases hc
  | cons d rest ih =>
    rcases List.mem_cons.mp hc with rfl | hm
    · by_cases hd : c = sep
      · exact Or.inl hd
      · right
        simp only [splitOnChar, if_neg hd]
        cases hs : splitOnChar sep rest with
        | nil => exact absurd hs (splitOnChar_ne_nil _ _)
        | cons s ss => exact ⟨c :: s, by simp, by simp⟩
    · rcases ih hm with hd | ⟨s, hs, hcs⟩
      · exact Or.inl hd
      · right
        simp only [splitOnChar]
        by_cases hd2 : d = sep
        · rw [if_pos hd2]
          exact ⟨s, List.mem_cons_of_mem _ hs, hcs⟩
        · rw [if_neg hd2]
          cases hsp : splitOnChar sep rest with
          | nil => exact absurd hsp (splitOnChar_ne_nil _ _)
          | cons s0 ss =>
            rw [hsp] at hs
            rcases List.mem_cons.mp hs with rfl | hss
            · exact ⟨d :: s, by simp, List.mem_cons_of_mem _ hcs⟩
            · exact ⟨s, List.mem_cons_of_mem _ hss, hcs⟩

theorem splitDC_ne_nil (l : List Char) : splitDC l ≠ [] := by
  rw [splitDC.eq_def]
  split
  · simp
  · simp
  · split <;> simp

theorem splitDC_cons_eq {c : Char} {rest : List Char}
    (h : ∀ r, c = ':' → rest = ':' :: r → False) {s : List Char} {ss : List (List Char)}
    (hs : splitDC rest = s :: ss) :
    splitDC (c :: rest) = (c :: s) :: ss := by
  rw [splitDC.eq_def]
  split
  · rename_i heq
    cases heq
  · rename_i r heq
    rw [List.cons.injEq] at heq
    rcases heq with ⟨hc, hr⟩
    exact (h r hc hr).elim
  · rename_i d r hne heq
    rw [List.cons.injEq] at heq
    obtain ⟨rfl, rfl⟩ := heq
    rw [hs]

theorem mem_splitDC {c : Char} {l : List Char} (hc : c ∈ l) :
    c = ':' ∨ ∃ s ∈ splitDC l, c ∈ s := by
  induction l using splitDC.induct with
  | case1 => cases hc
  | case2 rest ih =>
    rcases List.mem_cons.mp hc with rfl | hm
    · exact Or.inl rfl
    · rcases List.mem_cons.mp hm with rfl | hm2
      · exact Or.inl rfl
      · rcases ih hm2 with hd | ⟨s, hs, hcs⟩
        · exact Or.inl hd
        · exact Or.inr ⟨s, by simp [splitDC, hs], hcs⟩
  | case3 d rest h s ss hs ih =>
    rw [splitDC_cons_eq h hs]
    rcases List.mem_cons.mp hc with rfl | hm
    · exact Or.inr ⟨c :: s, by simp, by simp⟩
    · rcases ih hm with hd | ⟨s2, hs2, hcs2⟩
      · exact Or.inl hd
      · rw [hs] at hs2
        rcases List.mem_cons.mp hs2 with rfl | hss
        · exact Or.inr ⟨d :: s2, by simp, List.mem_cons_of_mem _ hcs2⟩
        · exact Or.inr ⟨s2, by simp [hss], hcs2⟩
  | case4 d rest h hs ih =>
    exact absurd hs (splitDC_ne_nil rest)

theorem isV6Seg_no_slash {g : List Char} (h : isV6Seg g = true) : ∀ c ∈ g, c ≠ '/' := by
  intro c hc
  simp only [isV6Seg, Bool.and_eq_true, List.all_eq_true] at h
  exact isHexDig_ne_slash (h.2 c hc)

theorem isV4SegL_no_slash {g : List Char} (h : isV4SegL g = true) : ∀ c ∈ g, c ≠ '/' := by
  intro c hc
  simp only [isV4SegL, Bool.and_eq_true, List.all_eq_true] at h
  exact isDig_ne_slash (h.1 c hc)

theorem isV4Str_no_slash {g : List Char} (h : isV4Str g = true) : ∀ c ∈ g, c ≠ '/' := by
  intro c hc
  rcases mem_splitOnChar '.' hc with rfl | ⟨s, hs, hcs⟩
  · decide
  · simp only [isV4Str] at h
    split at h
    · rename_i a b c0 d heq
      rw [heq] at hs
      simp only [List.mem_cons, List.not_mem_nil, or_false] at hs
      simp only [Bool.and_eq_true] at h
      rcases hs with rfl | rfl | rfl | rfl
      · exact isV4SegL_no_slash h.1.1.1 _ hcs
      · exact isV4SegL_no_slash h.1.1.2 _ hcs
      · exact isV4SegL_no_slash h.1.2 _ hcs
      · exact isV4SegL_no_slash h.2 _ hcs
    · cases h

theorem noElision_no_slash {a : List Char} (h : noElision a = true) : ∀ c ∈ a, c ≠ '/' := by
  intro c hc
  rcases mem_splitOnChar ':' hc with rfl | ⟨s, hs, hcs⟩
  · decide
  · simp only [noElision] at h
    split at h
    · rename_i g1 g2 g3 g4 g5 g6 g7 g8 heq
      rw [heq] at hs
      simp only [List.mem_cons, List.not_mem_nil, or_false] at hs
      simp only [List.all_eq_true] at h
      have hseg : isV6Seg s = true := by
        rcases hs with rfl | rfl | rfl | rfl | rfl | rfl | rfl | rfl <;> exact h _ (by simp)
      exact isV6Seg_no_slash hseg _ hcs
    · rename_i g1 g2 g3 g4 g5 g6 g7 heq
      rw [heq] at hs
      simp only [List.mem_cons, List.not_mem_nil, or_false] at hs
      simp only [Bool.and_eq_true, List.all_eq_true] at h
      rcases hs with rfl | rfl | rfl | rfl | rfl | rfl | rfl
      · exact isV6Seg_no_slash (h.1 _ (by simp)) _ hcs
      · exact isV6Seg_no_slash (h.1 _ (by simp)) _ hcs
      · exact isV6Seg_no_slash (h.1 _ (by simp)) _ hcs
      · exact isV6Seg_no_slash (h.1 _ (by simp)) _ hcs
      · exact isV6Seg_no_slash (h.1 _ (by simp)) _ hcs
      · exact isV6Seg_no_slash (h.1 _ (by simp)) _ hcs
      · exact isV4Str_no_slash h.2 _ hcs
    · cases h

theorem segsOf_no_slash {x : List Char}
    (h : ∀ s ∈ segsOf x, ∀ c ∈ s, c ≠ '/') : ∀ c ∈ x, c ≠ '/' := by
  intro c hc
  have hx : x ≠ [] := by
    intro he
    rw [he] at hc
    cases hc
  rcases mem_splitOnChar ':' hc with rfl | ⟨s, hs, hcs⟩
  · decide
  · exact h s (by simpa [segsOf, hx] using hs) c hcs

theorem elisionOK_no_slash {lft rgt : List Char} (h : elisionOK lft rgt = true) :
    (∀ c ∈ lft, c ≠ '/') ∧ (∀ c ∈ rgt, c ≠ '/') := by
  simp only [elisionOK, Bool.and_eq_true, Bool.or_eq_true, List.all_eq_true] at h
  obtain ⟨hl, hr⟩ := h
  constructor
  · exact segsOf_no_slash (fun s hs => isV6Seg_no_slash (hl s hs))
  · refine segsOf_no_slash (fun s hs => ?_)
    rcases hr with ⟨hall, _⟩ | hv4
    · exact isV6Seg_no_slash (hall s hs)
    · split at hv4
      · cases hv4
      · rename_i lastSeg initRev heq
        simp only [Bool.and_eq_true, List.all_eq_true] at hv4
        have hrev : s ∈ (segsOf rgt).reverse := List.mem_reverse.mpr hs
        rw [heq] at hrev
        rcases List.mem_cons.mp hrev with rfl | hinit
        · exact isV4Str_no_slash hv4.1.2
        · exact isV6Seg_no_slash (hv4.1.1 s hinit)

theorem isV6Addr_no_slash {addr : List Char} (h : isV6Addr addr = true) :
    ∀ c ∈ addr, c ≠ '/' := by
  intro c hc
  rcases mem_splitDC hc with rfl | ⟨s, hs, hcs⟩
  · decide
  · simp only [isV6Addr] at h
    split at h
    · rename_i one heq
      rw [heq] at hs
      simp only [List.mem_cons, List.not_mem_nil, or_false] at hs
      subst hs
      exact noElision_no_slash h _ hcs
    · rename_i lft rgt heq
      rw [heq] at hs
      simp only [List.mem_cons, List.not_mem_nil, or_false] at hs
      rcases hs with rfl | rfl
      · exact (elisionOK_no_slash h).1 _ hcs
      · exact (elisionOK_no_slash h).2 _ hcs
    · cases h

theorem isIPv6L_no_slash {l : List Char} (h : isIPv6L l = true) : ∀ c ∈ l, c ≠ '/' := by
  intro c hc
  have hsplit := List.takeWhile_append_dropWhile (p := fun c => decide (c ≠ '%')) (l := l)
  simp only [isIPv6L, splitZone, List.span_eq_take_drop] at h
  rw [← hsplit] at hc
  cases hdw : List.dropWhile (fun c => decide (c ≠ '%')) l with
  | nil =>
    rw [hdw] at h hc
    simp only [List.append_nil] at hc
    exact isV6Addr_no_slash h _ hc
  | cons p z =>
    rw [hdw] at h
    rw [hdw] at hc
    simp only [Bool.and_eq_true, List.all_eq_true] at h
    rcases List.mem_append.mp hc with htk | hdr
    · exact isV6Addr_no_slash h.2 _ htk
    · have hp : p = '%' := by
        have := List.head_dropWhile_not (p := fun c => decide (c ≠ '%')) (l := l)
        rw [hdw] at this
        simpa using this
      rcases List.mem_cons.mp hdr with rfl | hz
      · rw [hp]
        decide
      · exact isZoneChar_ne_slash (h.1.2 c hz)

theorem isIPv6_no_slash {ip : String} (h : isIPv6 ip = true) : ∀ c ∈ ip.data, c ≠ '/' :=
  isIPv6L_no_slash h

theorem cacheKeyOf_data (ip : String) (s : SubnetArg) :
    (cacheKeyOf ip s).data = ip.data ++ '/' :: (subnetStr s).data := by
  simp [cacheKeyOf, String.data_append]

theorem append_slash_inj {a b u v : List Char}
    (ha : ∀ c ∈ a, c ≠ '/') (hb : ∀ c ∈ b, c ≠ '/')
    (h : a ++ '/' :: u = b ++ '/' :: v) : a = b ∧ u = v := by
  induction a generalizing b with
  | nil =>
    cases b with
    | nil =>
      simp only [List.nil_append] at h
      exact ⟨rfl, (List.cons.injEq .. ▸ h).2⟩
    | cons d b2 =>
      simp only [List.nil_append, List.cons_append, List.cons.injEq] at h
      exact absurd h.1.symm (hb d (by simp))
  | cons d a2 ih =>
    cases b with
    | nil =>
      simp only [List.nil_append, List.cons_append, List.cons.injEq] at h
      exact absurd h.1 (ha d (by simp))
    | cons e b2 =>
      simp only [List.cons_append, List.cons.injEq] at h
      obtain ⟨rfl, h2⟩ := h
      have := ih (fun c hc => ha c (List.mem_cons_of_mem _ hc))
        (fun c hc => hb c (List.mem_cons_of_mem _ hc)) h2
      exact ⟨by rw [this.1], this.2⟩

theorem cacheKeyOf_inj {ip ip2 : String} {s s2 : SubnetArg}
    (h1 : isIPv6 ip = true) (h2 : isIPv6 ip2 = true)
    (he : cacheKeyOf ip s = cacheKeyOf ip2 s2) :
    ip = ip2 ∧ subnetStr s = subnetStr s2 := by
  have hd : (cacheKeyOf ip s).data = (cacheKeyOf ip2 s2).data := by rw [he]
  rw [cacheKeyOf_data, cacheKeyOf_data] at hd
  have := append_slash_inj (isIPv6_no_slash h1) (isIPv6_no_slash h2) hd
  exact ⟨String.ext this.1, String.ext this.2⟩

theorem jsGet_eq_none_iff {α : Type} {m : List (String × α)} {k : String} :
    jsGet m k = none ↔ ∀ e ∈ m, e.1 ≠ k := by
  simp [jsGet, List.find?_eq_none]

theorem jsGet_append {α : Type} (m1 m2 : List (String × α)) (k : String) :
    jsGet (m1 ++ m2) k = (jsGet m1 k).or (jsGet m2 k) := by
  simp only [jsGet, List.find?_append]
  cases m1.find? (fun e => e.1 = k) <;> simp

theorem jsSet_of_none {α : Type} {m : List (String × α)} {k : String}
    (h : jsGet m k = none) (v : α) : jsSet m k v = m ++ [(k, v)] := by
  rw [jsGet_eq_none_iff] at h
  have hany : m.any (fun e => e.1 = k) = false := by
    rw [Bool.eq_false_iff]
    intro hh
    rcases List.any_eq_true.mp hh with ⟨e, he, heq⟩
    exact h e he (by simpa using heq)
  simp [jsSet, hany]

theorem jsDelete_cons_head {α : Type} (e : String × α) (t : List (String × α)) :
    jsDelete (e :: t) e.1 = t := by
  simp [jsDelete]

theorem jsGet_not_key {α : Type} {m : List (String × α)} {k : String}
    (h : k ∉ m.map Prod.fst) : jsGet m k = none := by
  rw [jsGet_eq_none_iff]
  intro e he heq
  exact h (heq ▸ List.mem_map_of_mem Prod.fst he)

theorem mem_of_jsGet {α : Type} {m : List (String × α)} {k : String} {v : α}
    (h : jsGet m k = some v) : (k, v) ∈ m := by
  simp only [jsGet, Option.map_eq_some'] at h
  rcases h with ⟨e, hfind, hev⟩
  have hm := List.mem_of_find?_eq_some hfind
  have hp := List.find?_some hfind
  simp only [decide_eq_true_eq] at hp
  have : e = (k, v) := by
    cases e
    simp_all
  exact this ▸ hm

theorem jsGet_of_nodup_mem {α : Type} {m : List (String × α)}
    (hn : (m.map Prod.fst).Nodup) {e : String × α} (he : e ∈ m) :
    jsGet m e.1 = some e.2 := by
  induction m with
  | nil => cases he
  | cons f t ih =>
    simp only [List.map_cons, List.nodup_cons] at hn
    rcases List.mem_cons.mp he with rfl | ht
    · simp [jsGet]
    · have hne : f.1 ≠ e.1 := by
        intro hh
        exact hn.1 (hh ▸ List.mem_map_of_mem Prod.fst ht)
      have : jsGet (f :: t) e.1 = jsGet t e.1 := by
        simp [jsGet, List.find?, hne]
      rw [this]
      exact ih hn.2 ht

theorem jsGet_set_self {α : Type} (m : List (String × α)) (k : String) (v : α) :
    jsGet (jsSet m k v) k = some v := by
  by_cases h : m.any (fun e => e.1 = k) = true
  · simp only [jsSet, h, if_true]
    induction m with
    | nil => cases h
    | cons f t ih =>
      by_cases hf : f.1 = k
      · simp [jsGet, hf]
      · simp only [List.any_cons, Bool.or_eq_true, decide_eq_true_eq] at h
        rcases h with hh | hh
        · exact absurd hh hf
        · have hstep : jsGet ((f :: t).map (fun e => if e.1 = k then (k, v) else e)) k =
              jsGet (t.map (fun e => if e.1 = k then (k, v) else e)) k := by
            simp [jsGet, List.find?, hf]
          rw [hstep]
          exact ih hh
  · have hnone : jsGet m k = none := by
      rw [jsGet_eq_none_iff]
      intro e he heq
      exact h (List.any_eq_true.mpr ⟨e, he, by simpa using heq⟩)
    rw [jsSet_of_none hnone v, jsGet_append, hnone]
    simp [jsGet]

theorem ipKeyGenerator_fast {ip : String} {s : SubnetArg} {c : Ipv6Cache}
    (h : subnetTruthy s = false ∨ isIPv6 ip = false) :
    ipKeyGenerator ip s c = (.ok ip, c) := by
  have hcond : (!subnetTruthy s || !isIPv6 ip) = true := by
    rcases h with h | h <;> simp [h]
  simp [ipKeyGenerator, hcond]

theorem ipKeyGenerator_hit {ip : String} {s : SubnetArg} {c : Ipv6Cache} {v : String}
    (ht : subnetTruthy s = true) (hv : isIPv6 ip = true)
    (hg : jsGet c (cacheKeyOf ip s) = some v) :
    ipKeyGenerator ip s c = (.ok v, c) := by
  simp [ipKeyGenerator, ht, hv, hg]

theorem ipKeyGenerator_err {ip : String} {s : SubnetArg} {c : Ipv6Cache} {e : AddrErr}
    (ht : subnetTruthy s = true) (hv : isIPv6 ip = true)
    (hg : jsGet c (cacheKeyOf ip s) = none)
    (ha : address6StartCorrect (cacheKeyOf ip s) = .error e) :
    ipKeyGenerator ip s c = (.error e, c) := by
  simp [ipKeyGenerator, ht, hv, hg, ha]

theorem ipKeyGenerator_miss {ip : String} {s : SubnetArg} {c : Ipv6Cache} {f : String}
    (ht : subnetTruthy s = true) (hv : isIPv6 ip = true)
    (hg : jsGet c (cacheKeyOf ip s) = none)
    (ha : address6StartCorrect (cacheKeyOf ip s) = .ok f) :
    ipKeyGenerator ip s c =
      (.ok (f ++ "/" ++ subnetStr s),
        (if MAX_CACHE_SIZE ≤ c.length then c.tail else c) ++
          [(cacheKeyOf ip s, f ++ "/" ++ subnetStr s)]) := by
  have hsub : ∀ (c1 : Ipv6Cache), (∀ e ∈ c1, e ∈ c) →
      jsGet c1 (cacheKeyOf ip s) = none := by
    intro c1 hss
    rw [jsGet_eq_none_iff]
    intro e he
    exact jsGet_eq_none_iff.mp hg e (hss e he)
  by_cases hlen : MAX_CACHE_SIZE ≤ c.length
  · cases c with
    | nil => simp [MAX_CACHE_SIZE] at hlen
    | cons e0 t =>
      have hev : (match (e0 :: t).head? with
          | some e => jsDelete (e0 :: t) e.1
          | none => (e0 :: t)) = t := by
        simp [jsDelete_cons_head]
      have hset : jsSet t (cacheKeyOf ip s) (f ++ "/" ++ subnetStr s) =
          t ++ [(cacheKeyOf ip s, f ++ "/" ++ subnetStr s)] :=
        jsSet_of_none (hsub t (fun e he => List.mem_cons_of_mem _ he)) _
      simp only [ipKeyGenerator, ht, hv, hg, ha, Bool.not_true, Bool.or_self,
        Bool.false_eq_true, if_false, hlen, if_true, hev, hset]
      simp [hlen]
  · have hset : jsSet c (cacheKeyOf ip s) (f ++ "/" ++ subnetStr s) =
        c ++ [(cacheKeyOf ip s, f ++ "/" ++ subnetStr s)] :=
      jsSet_of_none (hsub c (fun e he => he)) _
    simp [ipKeyGenerator, ht, hv, hg, ha, hlen, hset]

theorem referenceKey_fast {ip : String} {s : SubnetArg}
    (h : subnetTruthy s = false ∨ isIPv6 ip = false) : referenceKey ip s = .ok ip := by
  have hcond : (!subnetTruthy s || !isIPv6 ip) = true := by
    rcases h with h | h <;> simp [h]
  simp [referenceKey, hcond]

theorem referenceKey_compute {ip : String} {s : SubnetArg}
    (ht : subnetTruthy s = true) (hv : isIPv6 ip = true) :
    referenceKey ip s =
      (address6StartCorrect (cacheKeyOf ip s)).map (fun f => f ++ "/" ++ subnetStr s) := by
  simp [referenceKey, ht, hv, cacheKeyOf]

theorem entryOK_value {e : String × String} (hE : EntryOK e) {ip : String} {s : SubnetArg}
    (ht : subnetTruthy s = true) (hv : isIPv6 ip = true) (hk : e.1 = cacheKeyOf ip s) :
    referenceKey ip s = .ok e.2 := by
  obtain ⟨ip1, s1, ht1, hv1, hk1, hr1⟩ := hE
  have hkeq : cacheKeyOf ip1 s1 = cacheKeyOf ip s := by rw [← hk1, hk]
  obtain ⟨hip, hss⟩ := cacheKeyOf_inj hv1 hv hkeq
  rw [referenceKey_compute ht1 hv1, hkeq, hss] at hr1
  rw [referenceKey_compute ht hv]
  exact hr1

theorem cacheOK_step {c : Ipv6Cache} (hC : CacheOK c) (ip : String) (s : SubnetArg) :
    CacheOK (ipKeyGenerator ip s c).2 := by
  by_cases ht : subnetTruthy s = true
  · by_cases hv : isIPv6 ip = true
    · cases hg : jsGet c (cacheKeyOf ip s) with
      | some v =>
        rw [ipKeyGenerator_hit ht hv hg]
        exact hC
      | none =>
        cases ha : address6StartCorrect (cacheKeyOf ip s) with
        | error e =>
          rw [ipKeyGenerator_err ht hv hg ha]
          exact hC
        | ok f =>
          rw [ipKeyGenerator_miss ht hv hg ha]
          intro e he
          rcases List.mem_append.mp he with h1 | h2
          · apply hC
            split at h1
            · exact List.mem_of_mem_tail h1
            · exact h1
          · simp only [List.mem_singleton] at h2
            subst h2
            refine ⟨ip, s, ht, hv, rfl, ?_⟩
            rw [referenceKey_compute ht hv, ha]
            rfl
    · rw [ipKeyGenerator_fast (Or.inr (by simpa using hv))]
      exact hC
  · rw [ipKeyGenerator_fast (Or.inl (by simpa using ht))]
    exact hC

theorem reachable_cacheOK {c : Ipv6Cache} (h : Reachable c) : CacheOK c := by
  induction h with
  | nil => intro e he; cases he
  | step ip s hr ih => exact cacheOK_step ih ip s

theorem ipKeyGenerator_result_of_cacheOK {c : Ipv6Cache} (hC : CacheOK c)
    (ip : String) (s : SubnetArg) :
    (ipKeyGenerator ip s c).1 = referenceKey ip s := by
  by_cases ht : subnetTruthy s = true
  · by_cases hv : isIPv6 ip = true
    · cases hg : jsGet c (cacheKeyOf ip s) with
      | some v =>
        rw [ipKeyGenerator_hit ht hv hg]
        have hmem := mem_of_jsGet hg
        exact (entryOK_value (hC _ hmem) ht hv rfl).symm
      | none =>
        cases ha : address6StartCorrect (cacheKeyOf ip s) with
        | error e =>
          rw [ipKeyGenerator_err ht hv hg ha, referenceKey_compute ht hv, ha]
          rfl
        | ok f =>
          rw [ipKeyGenerator_miss ht hv hg ha, referenceKey_compute ht hv, ha]
          rfl
    · rw [ipKeyGenerator_fast (Or.inr (by simpa using hv)),
        referenceKey_fast (Or.inr (by simpa using hv))]
  · rw [ipKeyGenerator_fast (Or.inl (by simpa using ht)),
      referenceKey_fast (Or.inl (by simpa using ht))]

theorem natDecAux_congr {f g n : Nat} (hf : n < f) (hg : n < g) :
    natDecAux f n = natDecAux g n := by
  induction f generalizing g n with
  | zero => omega
  | succ f2 ih =>
    cases g with
    | zero => omega
    | succ g2 =>
      simp only [natDecAux]
      by_cases hn : n < 10
      · simp [hn]
      · simp only [if_neg hn]
        have hd : n / 10 < n := Nat.div_lt_self (by omega) (by omega)
        rw [ih (g := g2) (by omega) (by omega)]

theorem natDec_eq (n : Nat) :
    natDec n = if n < 10 then [digCh n] else natDec (n / 10) ++ [digCh (n % 10)] := by
  by_cases hn : n < 10
  · simp [natDec, natDecAux, hn]
  · rw [if_neg hn]
    show natDecAux (n + 1) n = natDecAux (n / 10 + 1) (n / 10) ++ [digCh (n % 10)]
    have hstep : natDecAux (n + 1) n = natDecAux n (n / 10) ++ [digCh (n % 10)] := by
      simp only [natDecAux, if_neg hn]
    rw [hstep]
    have hd : n / 10 < n := Nat.div_lt_self (by omega) (by omega)
    rw [natDecAux_congr (f := n) (g := n / 10 + 1) (by omega) (by omega)]

theorem isDig_digCh {n : Nat} (h : n < 10) : isDig (digCh n) = true := by
  interval_cases n <;> decide

theorem digVal_digCh {n : Nat} (h : n < 10) : digVal (digCh n) = n := by
  interval_cases n <;> decide

theorem natDec_digits (n : Nat) : ∀ c ∈ natDec n, isDig c = true := by
  induction n using Nat.strong_induction_on with
  | _ n ih =>
    intro c hc
    rw [natDec_eq] at hc
    by_cases hn : n < 10
    · rw [if_pos hn] at hc
      simp only [List.mem_singleton] at hc
      subst hc
      exact isDig_digCh hn
    · rw [if_neg hn] at hc
      rcases List.mem_append.mp hc with h | h
      · exact ih (n / 10) (Nat.div_lt_self (by omega) (by omega)) c h
      · simp only [List.mem_singleton] at h
        subst h
        exact isDig_digCh (Nat.mod_lt _ (by omega))

theorem decValL_append_one (a : List Char) (d : Char) :
    decValL (a ++ [d]) = decValL a * 10 + digVal d := by
  simp [decValL, List.foldl_append]

theorem decValL_natDec (n : Nat) : decValL (natDec n) = n := by
  induction n using Nat.strong_induction_on with
  | _ n ih =>
    rw [natDec_eq]
    by_cases hn : n < 10
    · rw [if_pos hn]
      simp [decValL, digVal_digCh hn]
    · rw [if_neg hn, decValL_append_one,
        ih (n / 10) (Nat.div_lt_self (by omega) (by omega)),
        digVal_digCh (Nat.mod_lt _ (by omega))]
      omega

theorem natDec_len1 {n : Nat} (h : n < 10) : (natDec n).length = 1 := by
  rw [natDec_eq, if_pos h]
  rfl

theorem natDec_len2 {n : Nat} (h1 : 10 ≤ n) (h2 : n ≤ 99) : (natDec n).length = 2 := by
  rw [natDec_eq, if_neg (by omega)]
  have : n / 10 < 10 := by omega
  simp [natDec_len1 this]

theorem natDec_len3 {n : Nat} (h1 : 100 ≤ n) (h2 : n ≤ 999) : (natDec n).length = 3 := by
  rw [natDec_eq, if_neg (by omega)]
  have hl : 10 ≤ n / 10 := by omega
  have hh : n / 10 ≤ 99 := by omega
  simp [natDec_len2 hl hh]

theorem natDec_len_ge3 {n : Nat} (h : 100 ≤ n) : 3 ≤ (natDec n).length := by
  induction n using Nat.strong_induction_on with
  | _ n ih =>
    by_cases hle : n ≤ 999
    · rw [natDec_len3 h hle]
    · rw [natDec_eq, if_neg (by omega)]
      have h3 : 3 ≤ (natDec (n / 10)).length :=
        ih (n / 10) (Nat.div_lt_self (by omega) (by omega)) (by omega)
      simp only [List.length_append, List.length_cons, List.length_nil]
      omega

theorem natDec_len_ge4 {n : Nat} (h : 1000 ≤ n) : 4 ≤ (natDec n).length := by
  rw [natDec_eq, if_neg (by omega)]
  have h3 : 3 ≤ (natDec (n / 10)).length := natDec_len_ge3 (by omega)
  simp only [List.length_append, List.length_cons, List.length_nil]
  omega

theorem isDig_ne_pct {c : Char} (h : isDig c = true) : c ≠ '%' := by
  intro he
  subst he
  exact absurd h (by decide)

theorem findSubnet_no_slash {l : List Char} (h : ∀ c ∈ l, c ≠ '/') :
    findSubnet l = none := by
  induction l with
  | nil => rfl
  | cons c rest ih =>
    have hc : c ≠ '/' := h c (by simp)
    simp only [findSubnet, if_neg hc]
    rw [ih (fun d hd => h d (List.mem_cons_of_mem _ hd))]
    rfl

theorem findSubnet_append {a t : List Char} (ha : ∀ c ∈ a, c ≠ '/')
    (htc : ∀ c ∈ t, c ≠ '/') :
    findSubnet (a ++ '/' :: t) =
      match tryMatchSubnet t with
      | some (d, aft) => some (d, a ++ aft)
      | none => none := by
  induction a with
  | nil =>
    simp only [List.nil_append, findSubnet, if_pos rfl]
    cases htm : tryMatchSubnet t with
    | some p => cases p; simp
    | none => simp [findSubnet_no_slash htc]
  | cons c a2 ih =>
    have hc : c ≠ '/' := ha c (by simp)
    simp only [List.cons_append, findSubnet, if_neg hc, List.append_eq]
    rw [ih (fun d hd => ha d (List.mem_cons_of_mem _ hd))]
    cases htm : tryMatchSubnet t with
    | some p => cases p; simp
    | none => rfl

theorem tryMatchSubnet_digits3 {t : List Char} (hd : ∀ c ∈ t, isDig c = true)
    (hl : t.length = 3) : tryMatchSubnet t = some (t, []) := by
  have h1 : t.take 3 = t := List.take_of_length_le (by omega)
  have h2 : t.drop 3 = [] := List.drop_eq_nil_of_le (by omega)
  have hcond : (decide (3 ≤ t.length) && (t.take 3).all isDig &&
      (decide (t.drop 3 = []) || decide ((t.drop 3).head? = some '%'))) = true := by
    rw [h1, h2]
    have hall : t.all isDig = true := List.all_eq_true.mpr (fun x hx => hd x hx)
    simp [hall, hl]
  simp only [tryMatchSubnet]
  rw [if_pos hcond, h1, h2]

theorem tryMatchSubnet_digits_long {t : List Char} (hd : ∀ c ∈ t, isDig c = true)
    (hl : 4 ≤ t.length) : tryMatchSubnet t = none := by
  have hdropne : ∀ k, k ≤ 3 →
      (decide (t.drop k = []) || decide ((t.drop k).head? = some '%')) = false := by
    intro k hk
    cases hdr : t.drop k with
    | nil =>
      have := List.drop_eq_nil_iff.mp hdr
      omega
    | cons c r =>
      have hcd : isDig c = true := hd c (List.drop_subset k t (hdr ▸ List.mem_cons_self c r))
      have : c ≠ '%' := isDig_ne_pct hcd
      simp [this]
  simp only [tryMatchSubnet, hdropne 3 (by omega), hdropne 2 (by omega), hdropne 1 (by omega)]
  simp

theorem tryMatchSubnet_nondigit_head {c : Char} {r : List Char} (hc : isDig c = false) :
    tryMatchSubnet (c :: r) = none := by
  have hall : ∀ k, ((c :: r).take (k + 1)).all isDig = false := by
    intro k
    simp [List.take_cons, List.all_cons, hc]
  simp only [tryMatchSubnet, hall 2, hall 1, hall 0]
  simp

theorem subnetStr_num_data (s : Int) : (subnetStr (.num s)).data = intDec s := rfl

theorem a6_invalid_subnet {ip : String} {s : Int} (hv : isIPv6 ip = true)
    (hs : s < 0 ∨ 128 < s) :
    address6StartCorrect (cacheKeyOf ip (.num s)) = .error .invalidSubnetMask := by
  have hdata : (cacheKeyOf ip (.num s)).data = ip.data ++ '/' :: intDec s := by
    rw [cacheKeyOf_data, subnetStr_num_data]
  have hno : ∀ c ∈ ip.data, c ≠ '/' := isIPv6_no_slash hv
  have hslash : (ip.data ++ '/' :: intDec s).contains '/' = true := by
    simp [List.contains, List.elem_eq_mem]
  rcases hs with hneg | hbig
  · have hint : intDec s = '-' :: natDec s.natAbs := by
      simp [intDec, hneg]
    have htc : ∀ c ∈ intDec s, c ≠ '/' := by
      rw [hint]
      intro c hc
      rcases List.mem_cons.mp hc with rfl | hm
      · decide
      · exact isDig_ne_slash (natDec_digits _ c hm)
    have hfind : findSubnet (ip.data ++ '/' :: intDec s) = none := by
      rw [findSubnet_append hno htc, hint,
        tryMatchSubnet_nondigit_head (by decide)]
    simp only [address6StartCorrect, address6StartCorrectL, hdata, hfind, hslash]
    rfl
  · have hnn : ¬s < 0 := by omega
    have hint : intDec s = natDec s.toNat := by
      simp [intDec, hnn]
    have hn129 : 129 ≤ s.toNat := by omega
    have htc : ∀ c ∈ intDec s, c ≠ '/' := by
      rw [hint]
      exact fun c hc => isDig_ne_slash (natDec_digits _ c hc)
    by_cases hsmall : s.toNat ≤ 999
    · have htm : tryMatchSubnet (intDec s) = some (intDec s, []) := by
        rw [hint]
        exact tryMatchSubnet_digits3 (natDec_digits _) (natDec_len3 (by omega) hsmall)
      have hfind : findSubnet (ip.data ++ '/' :: intDec s) =
          some (intDec s, ip.data ++ []) := by
        rw [findSubnet_append hno htc, htm]
      have hval : 128 < decValL (intDec s) := by
        rw [hint, decValL_natDec]
        omega
      simp only [address6StartCorrect, address6StartCorrectL, hdata, hfind,
        if_pos hval]
      rfl
    · have htm : tryMatchSubnet (intDec s) = none := by
        rw [hint]
        exact tryMatchSubnet_digits_long (natDec_digits _) (natDec_len_ge4 (by omega))
      have hfind : findSubnet (ip.data ++ '/' :: intDec s) = none := by
        rw [findSubnet_append hno htc, htm]
      simp only [address6StartCorrect, address6StartCorrectL, hdata, hfind, hslash]
      rfl

theorem lastN_of_le {α : Type} {l : List α} {n : Nat} (h : l.length ≤ n) :
    lastN n l = l := by
  simp [lastN, Nat.sub_eq_zero_of_le h]

theorem fifo_step {α : Type} {M : Nat} (hM : 1 ≤ M) (pre : List α) (e : α) :
    (if M ≤ (lastN M pre).length then (lastN M pre).tail else lastN M pre) ++ [e] =
      lastN M (pre ++ [e]) := by
  by_cases h : pre.length < M
  · rw [lastN_of_le (l := pre) (by omega)]
    rw [if_neg (by omega)]
    rw [lastN_of_le (by simp; omega)]
  · have hlen : (lastN M pre).length = M := by
      simp only [lastN, List.length_drop]
      omega
    rw [if_pos (by omega)]
    simp only [lastN, List.tail_drop]
    have hn : (pre ++ [e]).length - M ≤ pre.length := by
      simp only [List.length_append, List.length_cons, List.length_nil]
      omega
    have hl : (pre ++ [e]).length - M = pre.length - M + 1 := by
      simp only [List.length_append, List.length_cons, List.length_nil]
      omega
    rw [List.drop_append_of_le_length hn, hl]

theorem runCalls_nil (c : Ipv6Cache) : runCalls [] c = c :=
  rfl

theorem runCalls_cons (p : String × SubnetArg) (l : List (String × SubnetArg))
    (c : Ipv6Cache) : runCalls (p :: l) c = runCalls l (ipKeyGenerator p.1 p.2 c).2 :=
  rfl

theorem runCalls_fifo (l : List (String × SubnetArg)) (pre : List (String × String))
    (hok : ∀ p ∈ l, subnetTruthy p.2 = true ∧ isIPv6 p.1 = true ∧
      ∃ f, address6StartCorrect (cacheKeyOf p.1 p.2) = .ok f)
    (hnd : ((pre ++ l.map entryOf).map Prod.fst).Nodup) :
    runCalls l (lastN MAX_CACHE_SIZE pre) = lastN MAX_CACHE_SIZE (pre ++ l.map entryOf) := by
  induction l generalizing pre with
  | nil => rw [runCalls_nil, List.map_nil, List.append_nil]
  | cons p rest ih =>
    obtain ⟨ht, hv, f, ha⟩ := hok p (by simp)
    have hE : entryOf p = (cacheKeyOf p.1 p.2, f ++ "/" ++ subnetStr p.2) := by
      simp [entryOf, ha]
    have hkey_not : cacheKeyOf p.1 p.2 ∉ (lastN MAX_CACHE_SIZE pre).map Prod.fst := by
      intro hmem
      have hsub : List.Sublist (lastN MAX_CACHE_SIZE pre) pre := List.drop_sublist _ _
      have h1 : cacheKeyOf p.1 p.2 ∈ pre.map Prod.fst :=
        (hsub.map Prod.fst).subset hmem
      rw [List.map_append] at hnd
      have hdisj := (List.nodup_append.mp hnd).2.2
      refine hdisj h1 ?_
      rw [List.map_cons, List.map_cons, hE]
      exact List.mem_cons_self _ _
    have hg : jsGet (lastN MAX_CACHE_SIZE pre) (cacheKeyOf p.1 p.2) = none :=
      jsGet_not_key hkey_not
    have hm := ipKeyGenerator_miss (c := lastN MAX_CACHE_SIZE pre) ht hv hg ha
    rw [runCalls_cons]
    have hstep : (ipKeyGenerator p.1 p.2 (lastN MAX_CACHE_SIZE pre)).2 =
        lastN MAX_CACHE_SIZE (pre ++ [entryOf p]) := by
      rw [hm]
      simp only
      rw [hE]
      have hM : 1 ≤ MAX_CACHE_SIZE := by
        unfold MAX_CACHE_SIZE
        omega
      exact fifo_step hM pre (cacheKeyOf p.1 p.2, f ++ "/" ++ subnetStr p.2)
    rw [hstep]
    have hnd2 : (((pre ++ [entryOf p]) ++ rest.map entryOf).map Prod.fst).Nodup := by
      rw [← List.append_cons pre (entryOf p) (rest.map entryOf)]
      simpa using hnd
    have hrec := ih (pre ++ [entryOf p]) (fun q hq => hok q (List.mem_cons_of_mem _ hq)) hnd2
    rw [hrec, ← List.append_cons pre (entryOf p) (rest.map entryOf), List.map_cons]

theorem increment_live {st : MemoryStore} {key : String} {c rt now : Nat}
    (hg : jsGet st.hits key = some (c, rt)) (hlt : now < rt) :
    st.increment key now = ((c + 1, rt), ⟨st.windowMs, jsSet st.hits key (c + 1, rt)⟩) := by
  simp [MemoryStore.increment, hg, hlt]

theorem increment_fresh {st : MemoryStore} {key : String} {now : Nat}
    (h : jsGet st.hits key = none ∨ ∃ c rt, jsGet st.hits key = some (c, rt) ∧ rt ≤ now) :
    st.increment key now =
      ((1, now + st.windowMs), ⟨st.windowMs, jsSet st.hits key (1, now + st.windowMs)⟩) := by
  rcases h with h | ⟨c, rt, hg, hexp⟩
  · simp [MemoryStore.increment, h]
  · simp [MemoryStore.increment, hg, Nat.not_lt.mpr hexp]

theorem incrementSeq_live (st : MemoryStore) {key : String} (c rt : Nat)
    (hg : jsGet st.hits key = some (c, rt)) (ts : List Nat)
    (hts : ∀ t ∈ ts, t < rt) :
    (st.incrementSeq key ts).1 = (List.range ts.length).map (fun i => (c + 1 + i, rt)) := by
  induction ts generalizing st c with
  | nil => simp [MemoryStore.incrementSeq]
  | cons t ts2 ih =>
    have hlt : t < rt := hts t (by simp)
    simp only [MemoryStore.incrementSeq, increment_live hg hlt]
    have hg2 : jsGet (jsSet st.hits key (c + 1, rt)) key = some (c + 1, rt) :=
      jsGet_set_self _ _ _
    have hrec := ih ⟨st.windowMs, jsSet st.hits key (c + 1, rt)⟩ (c + 1) hg2
      (fun u hu => hts u (List.mem_cons_of_mem _ hu))
    simp only at hrec
    rw [hrec, List.length_cons, List.range_succ_eq_map, List.map_cons, List.map_map]
    refine congrArg₂ _ (by simp) ?_
    refine List.map_congr_left (fun a ha => ?_)
    simp only [Function.comp_apply, Prod.mk.injEq]
    exact ⟨by omega, trivial⟩

theorem value_has_slash (f t : String) : '/' ∈ (f ++ "/" ++ t).data := by
  simp only [String.data_append, List.mem_append]
  left
  right
  decide

theorem jsGet_cons_ne {α : Type} {e : String × α} {t : List (String × α)} {k : String}
    (h : e.1 ≠ k) : jsGet (e :: t) k = jsGet t k := by
  simp [jsGet, List.find?, h]

/-- Claim C1: when the input is not a syntactically valid IPv6 address (which
covers every plain IPv4 address and any malformed string), or when the subnet
argument is the no-collapsing sentinel `false`, `ipKeyGenerator` returns the
input unchanged, leaves the cache untouched, and raises no error. -/
theorem claim_C1 (ip : String) (s : SubnetArg) (c : Ipv6Cache) :
    (isIPv6 ip = false → ipKeyGenerator ip s c = (.ok ip, c)) ∧
    ipKeyGenerator ip .fls c = (.ok ip, c) := by
  constructor
  · intro h
    exact ipKeyGenerator_fast (Or.inr h)
  · exact ipKeyGenerator_fast (Or.inl rfl)

/-- Witness for claim C1 at the IPv4 fast-path input of the spec and at the
sentinel. -/
theorem claim_C1_witness :
    isIPv6 "203.0.113.5" = false ∧
    ipKeyGenerator "203.0.113.5" (.num 56) [] = (.ok "203.0.113.5", []) ∧
    ipKeyGenerator "2001:db8::1" .fls [] = (.ok "2001:db8::1", []) :=
  ⟨rfl, (claim_C1 "203.0.113.5" (.num 56) []).1 rfl, (claim_C1 "2001:db8::1" .fls []).2⟩

/-- Claim C9: subnet size 0, although outside the documented 1-128 range, is a
falsy JavaScript number, so `ipKeyGenerator` treats it exactly like the
no-collapsing sentinel: the input comes back unchanged, no error is raised,
and neither parsing nor the cache is reached (the cache is untouched). -/
theorem claim_C9 (ip : String) (c : Ipv6Cache) :
    ipKeyGenerator ip (.num 0) c = (.ok ip, c) :=
  ipKeyGenerator_fast (Or.inl (by decide))

/-- Counterexample to claim C5 as stated: the call on the spec's example does
not return the spec's example value `2001:db8:85::/56`. -/
theorem claim_C5_counterexample :
    (ipKeyGenerator "2001:db8:85a3::8a2e:370:7334" (.num 56) []).1 ≠
      .ok "2001:db8:85::/56" := by
  intro h
  have h2 : (ipKeyGenerator "2001:db8:85a3::8a2e:370:7334" (.num 56) []).1 =
      .ok "2001:db8:85a3::/56" := rfl
  rw [h2] at h
  exact absurd (Except.ok.inj h) (by decide)

/-- Claim C5 (amended): the /56 subnet of `2001:db8:85a3::8a2e:370:7334`
starts at `2001:db8:85a3::` (56 bits keep the first three groups and the top
byte of the fourth, which is zero here), so the canonical compressed result
with the suffix appended is `2001:db8:85a3::/56`. -/
theorem claim_C5 :
    ipKeyGenerator "2001:db8:85a3::8a2e:370:7334" (.num 56) [] =
      (.ok "2001:db8:85a3::/56",
        [("2001:db8:85a3::8a2e:370:7334/56", "2001:db8:85a3::/56")]) :=
  rfl

/-- Counterexample to claim C4 as stated: subnet size 0 lies outside 1-128,
yet for the valid IPv6 input `::1` the call raises no error and returns the
input unchanged (0 is falsy, so the no-collapsing fast path runs). -/
theorem claim_C4_counterexample :
    isIPv6 "::1" = true ∧ ((0 : Int) < 1 ∨ 128 < (0 : Int)) ∧
    (ipKeyGenerator "::1" (.num 0) []).1 = .ok "::1" :=
  ⟨rfl, Or.inl (by decide), rfl⟩

/-- Claim C4 (amended): for every syntactically valid IPv6 address and every
nonzero integral subnet size outside 1-128, and every reachable cache state,
`ipKeyGenerator` surfaces the `Invalid subnet mask` error of the `Address6`
constructor to the caller and never clamps; the one exception forced by the
counterexample is subnet size 0, which is falsy and selects the
no-collapsing fast path instead. -/
theorem claim_C4 (ip : String) (s : Int) (c : Ipv6Cache) (hr : Reachable c)
    (hv : isIPv6 ip = true) (hs0 : s ≠ 0) (hrange : s < 1 ∨ 128 < s) :
    ipKeyGenerator ip (.num s) c = (.error .invalidSubnetMask, c) := by
  have hs : s < 0 ∨ 128 < s := by omega
  have ht : subnetTruthy (.num s) = true := by simp [subnetTruthy, hs0]
  have ha := a6_invalid_subnet (s := s) hv hs
  cases hg : jsGet c (cacheKeyOf ip (.num s)) with
  | none => exact ipKeyGenerator_err ht hv hg ha
  | some v =>
    exfalso
    obtain ⟨ip1, s1, ht1, hv1, hk1, hr1⟩ := reachable_cacheOK hr _ (mem_of_jsGet hg)
    rw [referenceKey_compute ht1 hv1] at hr1
    have hkeq : cacheKeyOf ip1 s1 = cacheKeyOf ip (.num s) := hk1.symm
    rw [hkeq, ha] at hr1
    simp [Except.map] at hr1

/-- Witness for claim C4 (amended) at the valid address `::1` with the
out-of-range subnet size 200 and the empty (initial) cache. -/
theorem claim_C4_witness :
    ipKeyGenerator "::1" (.num 200) [] = (.error .invalidSubnetMask, []) :=
  claim_C4 "::1" 200 [] Reachable.nil rfl (by decide) (by decide)

/-- Claim C3: the memo cache is semantically transparent.  On every cache
state reachable by prior calls, `ipKeyGenerator` returns exactly what the
cache-free reference computation returns, and a repeated call with the same
arguments (on the cache the first call leaves behind) returns the identical
result. -/
theorem claim_C3 (c : Ipv6Cache) (ip : String) (s : SubnetArg) (hr : Reachable c) :
    (ipKeyGenerator ip s c).1 = referenceKey ip s ∧
    (ipKeyGenerator ip s (ipKeyGenerator ip s c).2).1 = (ipKeyGenerator ip s c).1 := by
  have h1 := ipKeyGenerator_result_of_cacheOK (reachable_cacheOK hr) ip s
  have h2 := ipKeyGenerator_result_of_cacheOK
    (reachable_cacheOK (Reachable.step ip s hr)) ip s
  exact ⟨h1, by rw [h1, h2]⟩

/-- Witness for claim C3 on the initial cache at a valid IPv6 address. -/
theorem claim_C3_witness :
    (ipKeyGenerator "::1" (.num 64) []).1 = referenceKey "::1" (.num 64) ∧
    (ipKeyGenerator "::1" (.num 64) (ipKeyGenerator "::1" (.num 64) []).2).1 =
      (ipKeyGenerator "::1" (.num 64) []).1 :=
  claim_C3 [] "::1" (.num 64) Reachable.nil

/-- Claim C8: omitting the `ipv6Subnet` argument is the same call as passing
56 (the declared default), and under that default every syntactically valid
IPv6 address is collapsed — on any reachable cache a successful result is
never the input passed through unchanged. -/
theorem claim_C8 :
    (∀ ip c, ipKeyGeneratorDefault ip c = ipKeyGenerator ip (.num 56) c) ∧
    (∀ ip c v, Reachable c → isIPv6 ip = true →
      (ipKeyGeneratorDefault ip c).1 = .ok v → v ≠ ip) := by
  constructor
  · intro ip c
    rfl
  · intro ip c v hr hv hok heq
    have ht : subnetTruthy (.num 56) = true := by decide
    have h1 : (ipKeyGenerator ip (.num 56) c).1 = referenceKey ip (.num 56) :=
      ipKeyGenerator_result_of_cacheOK (reachable_cacheOK hr) ip (.num 56)
    have hok2 : referenceKey ip (.num 56) = .ok v := by
      rw [← h1]
      exact hok
    rw [referenceKey_compute ht hv] at hok2
    cases ha : address6StartCorrect (cacheKeyOf ip (.num 56)) with
    | error e =>
      rw [ha] at hok2
      simp [Except.map] at hok2
    | ok f =>
      rw [ha] at hok2
      simp only [Except.map, Except.ok.injEq] at hok2
      have hsl : '/' ∈ v.data := by
        rw [← hok2]
        exact value_has_slash f (subnetStr (.num 56))
      rw [heq] at hsl
      exact isIPv6_no_slash hv '/' hsl rfl

/-- Witness for claim C8: the default call on `::1` over the initial cache
produces the /56 key `::/56`, which differs from the input. -/
theorem claim_C8_witness :
    (ipKeyGeneratorDefault "::1" []).1 = .ok "::/56" ∧ ("::/56" : String) ≠ "::1" :=
  ⟨rfl, claim_C8.2 "::1" [] "::/56" Reachable.nil rfl rfl⟩

/-- Claim C10: `ipKeyGenerator` is idempotent in its first argument.  If a
call on a reachable cache returns a string, feeding that string back with the
same subnet argument (under any cache whatsoever) returns it unchanged: a
collapsed output contains a `/`, so it is not a valid IPv6 address and takes
the fast path, and a passed-through input repeats its own fast path. -/
theorem claim_C10 (c : Ipv6Cache) (ip : String) (s : SubnetArg) (v : String)
    (c2 : Ipv6Cache) (hr : Reachable c) (hok : (ipKeyGenerator ip s c).1 = .ok v) :
    (ipKeyGenerator v s c2).1 = .ok v := by
  by_cases ht : subnetTruthy s = true
  · by_cases hv : isIPv6 ip = true
    · have h1 : (ipKeyGenerator ip s c).1 = referenceKey ip s :=
        ipKeyGenerator_result_of_cacheOK (reachable_cacheOK hr) ip s
      have hok2 : referenceKey ip s = .ok v := by
        rw [← h1]
        exact hok
      rw [referenceKey_compute ht hv] at hok2
      cases ha : address6StartCorrect (cacheKeyOf ip s) with
      | error e =>
        rw [ha] at hok2
        simp [Except.map] at hok2
      | ok f =>
        rw [ha] at hok2
        simp only [Except.map, Except.ok.injEq] at hok2
        have hsl : '/' ∈ v.data := by
          rw [← hok2]
          exact value_has_slash f (subnetStr s)
        have hnv : isIPv6 v = false := by
          cases hiv : isIPv6 v with
          | false => rfl
          | true => exact absurd rfl (isIPv6_no_slash hiv '/' hsl)
        rw [ipKeyGenerator_fast (Or.inr hnv)]
    · have hvf : isIPv6 ip = false := by
        cases hiv : isIPv6 ip with
        | false => rfl
        | true => exact absurd hiv hv
      rw [ipKeyGenerator_fast (Or.inr hvf)] at hok
      have hiv : ip = v := Except.ok.inj hok
      rw [← hiv, ipKeyGenerator_fast (Or.inr hvf)]
  · have htf : subnetTruthy s = false := by
      cases hts : subnetTruthy s with
      | false => rfl
      | true => exact absurd hts ht
    rw [ipKeyGenerator_fast (Or.inl htf)] at hok
    have hiv : ip = v := Except.ok.inj hok
    rw [← hiv, ipKeyGenerator_fast (Or.inl htf)]

/-- Witness for claim C10: re-normalizing the collapsed /56 key of the spec's
example address returns it unchanged. -/
theorem claim_C10_witness :
    (ipKeyGenerator "2001:db8:85a3::/56" (.num 56) []).1 = .ok "2001:db8:85a3::/56" :=
  claim_C10 [] "2001:db8:85a3::8a2e:370:7334" (.num 56) "2001:db8:85a3::/56" []
    Reachable.nil rfl

/-- Claim C6: a call never mutates an existing cache entry — any key present
before and after the call maps to the same value — and a single call removes
at most one entry (the eldest, and only on an at-capacity miss) and appends
at most one entry, leaving every other entry untouched.  The key-uniqueness
hypothesis is the representation invariant of the JavaScript `Map`. -/
theorem claim_C6 (ip : String) (s : SubnetArg) (c : Ipv6Cache)
    (hnd : (c.map Prod.fst).Nodup) :
    (∀ k v v2, jsGet c k = some v →
      jsGet (ipKeyGenerator ip s c).2 k = some v2 → v2 = v) ∧
    ((ipKeyGenerator ip s c).2 = c ∨
      ∃ r, jsGet c (cacheKeyOf ip s) = none ∧
        ((ipKeyGenerator ip s c).2 = c ++ [(cacheKeyOf ip s, r)] ∨
          (ipKeyGenerator ip s c).2 = c.tail ++ [(cacheKeyOf ip s, r)])) := by
  have base : (ipKeyGenerator ip s c).2 = c →
      (∀ k v v2, jsGet c k = some v →
        jsGet (ipKeyGenerator ip s c).2 k = some v2 → v2 = v) ∧
      ((ipKeyGenerator ip s c).2 = c ∨
        ∃ r, jsGet c (cacheKeyOf ip s) = none ∧
          ((ipKeyGenerator ip s c).2 = c ++ [(cacheKeyOf ip s, r)] ∨
            (ipKeyGenerator ip s c).2 = c.tail ++ [(cacheKeyOf ip s, r)])) := by
    intro he
    refine ⟨?_, Or.inl he⟩
    intro k v v2 hv hv2
    rw [he] at hv2
    exact (Option.some.inj (hv.symm.trans hv2)).symm
  by_cases ht : subnetTruthy s = true
  · by_cases hv : isIPv6 ip = true
    · rcases Option.eq_none_or_eq_some (jsGet c (cacheKeyOf ip s)) with hg | ⟨w, hg⟩
      swap
      · exact base (by rw [ipKeyGenerator_hit ht hv hg])
      · cases ha : address6StartCorrect (cacheKeyOf ip s) with
        | error e =>
          exact base (by rw [ipKeyGenerator_err ht hv hg ha])
        | ok f =>
          have hc2 : (ipKeyGenerator ip s c).2 =
              (if MAX_CACHE_SIZE ≤ c.length then c.tail else c) ++
                [(cacheKeyOf ip s, f ++ "/" ++ subnetStr s)] := by
            rw [ipKeyGenerator_miss ht hv hg ha]
          constructor
          · intro k v v2 hkv hkv2
            have hkne : k ≠ cacheKeyOf ip s := by
              intro heq
              rw [heq, hg] at hkv
              cases hkv
            have hkne2 : cacheKeyOf ip s ≠ k := fun h => hkne h.symm
            have hsingle : jsGet [(cacheKeyOf ip s, f ++ "/" ++ subnetStr s)] k = none := by
              simp [jsGet, List.find?, hkne2]
            rw [hc2, jsGet_append, hsingle] at hkv2
            by_cases hlen : MAX_CACHE_SIZE ≤ c.length
            · rw [if_pos hlen] at hkv2
              cases c with
              | nil => cases hkv
              | cons e t =>
                simp only [List.map_cons, List.nodup_cons] at hnd
                by_cases hke : e.1 = k
                · have hnone : jsGet t k = none := by
                    apply jsGet_not_key
                    rw [← hke]
                    exact hnd.1
                  rw [List.tail_cons, hnone] at hkv2
                  cases hkv2
                · rw [jsGet_cons_ne hke] at hkv
                  rw [List.tail_cons, hkv] at hkv2
                  exact (Option.some.inj hkv2).symm
            · rw [if_neg hlen, hkv] at hkv2
              exact (Option.some.inj hkv2).symm
          · refine Or.inr ⟨f ++ "/" ++ subnetStr s, hg, ?_⟩
            by_cases hlen : MAX_CACHE_SIZE ≤ c.length
            · right
              rw [hc2, if_pos hlen]
            · left
              rw [hc2, if_neg hlen]
    · have hvf : isIPv6 ip = false := by
        cases hiv : isIPv6 ip with
        | false => rfl
        | true => exact absurd hiv hv
      exact base (by rw [ipKeyGenerator_fast (Or.inr hvf)])
  · have htf : subnetTruthy s = false := by
      cases hts : subnetTruthy s with
      | false => rfl
      | true => exact absurd hts ht
    exact base (by rw [ipKeyGenerator_fast (Or.inl htf)])

/-- Witness for claim C6 on a one-entry cache and a colliding-free call. -/
theorem claim_C6_witness :
    (∀ k v v2, jsGet [("a", "b")] k = some v →
      jsGet (ipKeyGenerator "::1" (.num 64) [("a", "b")]).2 k = some v2 → v2 = v) ∧
    ((ipKeyGenerator "::1" (.num 64) [("a", "b")]).2 = [("a", "b")] ∨
      ∃ r, jsGet [("a", "b")] (cacheKeyOf "::1" (.num 64)) = none ∧
        ((ipKeyGenerator "::1" (.num 64) [("a", "b")]).2 =
            [("a", "b")] ++ [(cacheKeyOf "::1" (.num 64), r)] ∨
          (ipKeyGenerator "::1" (.num 64) [("a", "b")]).2 =
            [("a", "b")].tail ++ [(cacheKeyOf "::1" (.num 64), r)])) :=
  claim_C6 "::1" (.num 64) [("a", "b")] (by simp)

/-- Claim C2: the cache never exceeds `MAX_CACHE_SIZE` entries; an insertion
at capacity evicts exactly the single eldest entry before appending (strict
FIFO by insertion order); and, consequently, a run of distinct successful
collapsing calls from the empty cache leaves exactly the most recent
capacity-many entries, the eldest being gone once more than capacity-many
entries have been inserted while every one of the surviving entries is
still retrievable. -/
theorem claim_C2 :
    (∀ ip s c, c.length ≤ MAX_CACHE_SIZE →
      ((ipKeyGenerator ip s c).2).length ≤ MAX_CACHE_SIZE) ∧
    (∀ ip s c f, subnetTruthy s = true → isIPv6 ip = true →
      jsGet c (cacheKeyOf ip s) = none →
      address6StartCorrect (cacheKeyOf ip s) = .ok f →
      c.length = MAX_CACHE_SIZE →
      (ipKeyGenerator ip s c).2 =
        c.tail ++ [(cacheKeyOf ip s, f ++ "/" ++ subnetStr s)]) ∧
    (∀ l : List (String × SubnetArg),
      (∀ p ∈ l, subnetTruthy p.2 = true ∧ isIPv6 p.1 = true ∧
        ∃ f, address6StartCorrect (cacheKeyOf p.1 p.2) = .ok f) →
      ((l.map entryOf).map Prod.fst).Nodup →
      runCalls l [] = lastN MAX_CACHE_SIZE (l.map entryOf) ∧
      (MAX_CACHE_SIZE < l.length →
        (∀ e0 es, l.map entryOf = e0 :: es → jsGet (runCalls l []) e0.1 = none) ∧
        ∀ e ∈ lastN MAX_CACHE_SIZE (l.map entryOf),
          jsGet (runCalls l []) e.1 = some e.2)) := by
  have hM : 1 ≤ MAX_CACHE_SIZE := by
    unfold MAX_CACHE_SIZE
    omega
  refine ⟨?_, ?_, ?_⟩
  · intro ip s c hb
    by_cases ht : subnetTruthy s = true
    · by_cases hv : isIPv6 ip = true
      · rcases Option.eq_none_or_eq_some (jsGet c (cacheKeyOf ip s)) with hg | ⟨w, hg⟩
        · cases ha : address6StartCorrect (cacheKeyOf ip s) with
          | error e =>
            rw [ipKeyGenerator_err ht hv hg ha]
            exact hb
          | ok f =>
            rw [ipKeyGenerator_miss ht hv hg ha]
            by_cases hlen : MAX_CACHE_SIZE ≤ c.length
            · rw [if_pos hlen]
              simp only [List.length_append, List.length_tail, List.length_cons,
                List.length_nil]
              omega
            · rw [if_neg hlen]
              simp only [List.length_append, List.length_cons, List.length_nil]
              omega
        · rw [ipKeyGenerator_hit ht hv hg]
          exact hb
      · have hvf : isIPv6 ip = false := by
          cases hiv : isIPv6 ip with
          | false => rfl
          | true => exact absurd hiv hv
        rw [ipKeyGenerator_fast (Or.inr hvf)]
        exact hb
    · have htf : subnetTruthy s = false := by
        cases hts : subnetTruthy s with
        | false => rfl
        | true => exact absurd hts ht
      rw [ipKeyGenerator_fast (Or.inl htf)]
      exact hb
  · intro ip s c f ht hv hg ha hlen
    rw [ipKeyGenerator_miss ht hv hg ha, if_pos (by omega)]
  · intro l hok hnd
    have hmain : runCalls l [] = lastN MAX_CACHE_SIZE (l.map entryOf) := by
      have h := runCalls_fifo l [] hok (by simpa using hnd)
      rwa [show lastN MAX_CACHE_SIZE ([] : List (String × String)) = [] from rfl,
        List.nil_append] at h
    refine ⟨hmain, fun hlong => ⟨?_, ?_⟩⟩
    · intro e0 es hsplit
      have hlen2 : MAX_CACHE_SIZE ≤ es.length := by
        have h1 : (l.map entryOf).length = l.length := List.length_map _ _
        rw [hsplit] at h1
        simp only [List.length_cons] at h1
        omega
      have heq : lastN MAX_CACHE_SIZE (e0 :: es) =
          List.drop (es.length - MAX_CACHE_SIZE) es := by
        simp only [lastN, List.length_cons]
        rw [show es.length + 1 - MAX_CACHE_SIZE = (es.length - MAX_CACHE_SIZE) + 1 from
          by omega, List.drop_succ_cons]
      rw [hmain, hsplit, heq]
      apply jsGet_not_key
      intro hmem
      have hsub : e0.1 ∈ es.map Prod.fst :=
        ((List.drop_sublist _ _).map Prod.fst).subset hmem
      rw [hsplit] at hnd
      simp only [List.map_cons, List.nodup_cons] at hnd
      exact hnd.1 hsub
    · intro e he
      rw [hmain]
      refine jsGet_of_nodup_mem ?_ he
      exact List.Nodup.sublist ((List.drop_sublist _ _).map Prod.fst) hnd

/-- Witness for claim C2: the bound at the empty cache, the FIFO eviction at
a full 10000-entry cache, and the run consequence for a one-call sequence. -/
theorem claim_C2_witness :
    ((ipKeyGenerator "::1" (.num 64) []).2).length ≤ MAX_CACHE_SIZE ∧
    ((ipKeyGenerator "::1" (.num 64) (List.replicate 10000 ("k", "v"))).2 =
      (List.replicate 10000 ("k", "v")).tail ++
        [(cacheKeyOf "::1" (.num 64), "::" ++ "/" ++ subnetStr (.num 64))]) ∧
    (runCalls [("::1", SubnetArg.num 64)] [] =
        lastN MAX_CACHE_SIZE ([("::1", SubnetArg.num 64)].map entryOf) ∧
      (MAX_CACHE_SIZE < [("::1", SubnetArg.num 64)].length →
        (∀ e0 es, [("::1", SubnetArg.num 64)].map entryOf = e0 :: es →
          jsGet (runCalls [("::1", SubnetArg.num 64)] []) e0.1 = none) ∧
        ∀ e ∈ lastN MAX_CACHE_SIZE ([("::1", SubnetArg.num 64)].map entryOf),
          jsGet (runCalls [("::1", SubnetArg.num 64)] []) e.1 = some e.2)) := by
  refine ⟨claim_C2.1 "::1" (.num 64) [] (by simp),
    claim_C2.2.1 "::1" (.num 64) _ "::" rfl rfl ?_ rfl ?_,
    claim_C2.2.2 _ ?_ ?_⟩
  · apply jsGet_not_key
    rw [List.map_replicate]
    intro hmem
    exact absurd (List.eq_of_mem_replicate hmem) (by decide)
  · rw [List.length_replicate]
    rfl
  · intro p hp
    simp only [List.mem_singleton] at hp
    subst hp
    exact ⟨rfl, rfl, "::", rfl⟩
  · simp

/-- Claim C7 (Counter Store, modelled from the spec): for a key with no live
record (absent, or present but already expired at the first call's time), the
first `increment` returns `count = 1` with `resetTime = now + windowMs`, and
a run of consecutive `increment` calls whose times all stay inside that
window returns counts 1, 2, ..., N with the reset time unchanged
throughout. -/
theorem claim_C7 (st : MemoryStore) (key : String) (t0 : Nat) (ts : List Nat)
    (hfresh : jsGet st.hits key = none ∨
      ∃ c rt, jsGet st.hits key = some (c, rt) ∧ rt ≤ t0)
    (hts : ∀ t ∈ ts, t < t0 + st.windowMs) :
    (st.increment key t0).1 = (1, t0 + st.windowMs) ∧
    (st.incrementSeq key (t0 :: ts)).1 =
      (List.range (ts.length + 1)).map (fun i => (i + 1, t0 + st.windowMs)) := by
  have hinc := increment_fresh hfresh
  refine ⟨by rw [hinc], ?_⟩
  simp only [MemoryStore.incrementSeq, hinc]
  have hg : jsGet (jsSet st.hits key (1, t0 + st.windowMs)) key =
      some (1, t0 + st.windowMs) := jsGet_set_self _ _ _
  have hseq := incrementSeq_live
    ⟨st.windowMs, jsSet st.hits key (1, t0 + st.windowMs)⟩
    1 (t0 + st.windowMs) hg ts (fun u hu => hts u hu)
  simp only at hseq
  rw [hseq, List.range_succ_eq_map, List.map_cons, List.map_map]
  refine congrArg₂ _ (by simp) ?_
  refine List.map_congr_left (fun a ha => ?_)
  simp only [Function.comp_apply, Prod.mk.injEq]
  exact ⟨by omega, trivial⟩

/-- Witness for claim C7: a fresh store with a 1000 ms window, three calls at
times 5, 6 and 7 return counts 1, 2, 3, each with reset time 1005. -/
theorem claim_C7_witness :
    ((⟨1000, []⟩ : MemoryStore).increment "k" 5).1 = (1, 5 + 1000) ∧
    ((⟨1000, []⟩ : MemoryStore).incrementSeq "k" (5 :: [6, 7])).1 =
      (List.range ([6, 7].length + 1)).map (fun i => (i + 1, 5 + 1000)) :=
  claim_C7 ⟨1000, []⟩ "k" 5 [6, 7] (Or.inl rfl) (by decide)
